import Mathlib

/-!
Shallow embedding of the ACL decoder of `flask_phpbb3/backends/base.py`
(class `UserAcl`): the option-catalog parser `_parse_acl_options`, the
permission decoder `_parse_user_permissions`, and the query engine
`has_privilege` / `has_privileges`.

Python strings are modelled as Lean `String` / `List Char`; Python `dict`
is modelled as an insertion-ordered association list (`dictGet`,
`dictInsert`); Python exceptions (`KeyError`, `ValueError`, `IndexError`)
are modelled with `Except` where they can escape, and `Option` where the
code catches them (`except IndexError: pass`).  The `ValueError` raised by
`int(sub, 36)` on a malformed chunk is the error the specification calls
`DecodeError`.  Non-ASCII whitespace handling of Python's `str.rstrip`,
`str.splitlines` and `int` is outside the modelled alphabet; theorems over
arbitrary blobs therefore carry an `allAscii` hypothesis.
-/

deriving instance DecidableEq for Except

namespace FlaskPhpbb3

/-- Python exceptions that can escape the modelled code. -/
inductive PyErr where
  | keyError : PyErr
  | valueError : PyErr
  deriving DecidableEq, Repr

/-- The Python values that can sit in a raw catalog record's flag fields:
integers, strings, booleans and `None`. -/
inductive PyVal where
  | vInt (n : Int) : PyVal
  | vStr (s : String) : PyVal
  | vBool (b : Bool) : PyVal
  | vNone : PyVal
  deriving DecidableEq, Repr

/-- Python `x == 1` for a flag value: `1 == 1` and `True == 1` are `True`;
every other modelled value compares unequal to `1`. -/
def pyEqOne : PyVal → Bool
  | .vInt n => n == 1
  | .vBool b => b
  | .vStr _ => false
  | .vNone => false

/-- Python `dict` lookup (`d[k]` / `k in d`), first matching key. -/
def dictGet {α β : Type} [DecidableEq α] (k : α) : List (α × β) → Option β
  | [] => none
  | (k', v) :: rest => if k = k' then some v else dictGet k rest

/-- Python `dict` assignment `d[k] = v`: overwrite in place if the key is
present, else append at the end (insertion order). -/
def dictInsert {α β : Type} [DecidableEq α] (k : α) (v : β) : List (α × β) → List (α × β)
  | [] => [(k, v)]
  | (k', v') :: rest => if k' = k then (k, v) :: rest else (k', v') :: dictInsert k v rest

/-- ASCII whitespace stripped by Python's `str.rstrip()` and by `int()`:
`\t \n \v \f \r`, space, and the separators `\x1c`–`\x1f`. -/
def isPyWs (c : Char) : Bool :=
  c = ' ' || c = '\t' || c = '\n' || c = '\x0b' || c = '\x0c' || c = '\r' ||
  c = '\x1c' || c = '\x1d' || c = '\x1e' || c = '\x1f'

/-- The value of one base-36 digit (`0-9`, `a-z`, `A-Z`), `none` for any
other character. -/
def digitVal36 (c : Char) : Option Nat :=
  if '0' ≤ c ∧ c ≤ '9' then some (c.toNat - 48)
  else if 'a' ≤ c ∧ c ≤ 'z' then some (c.toNat - 97 + 10)
  else if 'A' ≤ c ∧ c ≤ 'Z' then some (c.toNat - 65 + 10)
  else none

/-- A character of the base-36 alphabet proper (digit or letter). -/
def isBase36Char (c : Char) : Bool := (digitVal36 c).isSome

/-- Digit string of a Python base-36 integer literal after sign and
whitespace: at least one digit, single underscores allowed only between
digits. -/
def parseDigitsRest36 : List Char → Nat → Option Nat
  | [], acc => some acc
  | c :: rest, acc =>
    if c = '_' then
      match rest with
      | [] => none
      | c2 :: rest2 =>
        match digitVal36 c2 with
        | some d => parseDigitsRest36 rest2 (acc * 36 + d)
        | none => none
    else
      match digitVal36 c with
      | some d => parseDigitsRest36 rest (acc * 36 + d)
      | none => none

/-- Parse a nonempty run of base-36 digits (underscore-separated). -/
def parseDigits36 : List Char → Option Nat
  | [] => none
  | c :: rest =>
    match digitVal36 c with
    | some d => parseDigitsRest36 rest d
    | none => none

/-- Strip leading and trailing Python whitespace. -/
def stripWs (cs : List Char) : List Char :=
  ((cs.dropWhile isPyWs).reverse.dropWhile isPyWs).reverse

/-- Python `int(s, 36)`: optional surrounding whitespace, optional single
sign, then base-36 digits with single underscores between digits; anything
else raises `ValueError`. -/
def pyIntBase36 (cs : List Char) : Except PyErr Int :=
  match stripWs cs with
  | [] => .error .valueError
  | c :: rest =>
    if c = '+' then
      match parseDigits36 rest with
      | some n => .ok (Int.ofNat n)
      | none => .error .valueError
    else if c = '-' then
      match parseDigits36 rest with
      | some n => .ok (-(Int.ofNat n))
      | none => .error .valueError
    else
      match parseDigits36 (c :: rest) with
      | some n => .ok (Int.ofNat n)
      | none => .error .valueError

/-- Binary digits of a natural number, most significant first, no leading
zeros (`[]` for `0`); fuel-driven so that it reduces by evaluation. -/
def natToBinAux : Nat → Nat → List Char
  | _, 0 => []
  | 0, _ + 1 => []
  | fuel + 1, n + 1 =>
    natToBinAux fuel ((n + 1) / 2) ++ [if (n + 1) % 2 = 1 then '1' else '0']

/-- Python `bin(n)[2:]` for a natural number (`bin(0)[2:] = "0"`). -/
def pyBinDigits (n : Nat) : List Char :=
  if n = 0 then ['0'] else natToBinAux n n

/-- Python `bin(n)[2:]` for an arbitrary integer: for a negative value
`bin` yields `-0b...` and slicing off two characters leaves `b` glued to
the digits. -/
def intBinDigits : Int → List Char
  | .ofNat m => pyBinDigits m
  | .negSucc m => 'b' :: pyBinDigits (m + 1)

/-- One chunk conversion of `_parse_user_permissions`:
`bin(int(sub, 36))[2:]` left-padded with `'0' * (31 - len)` (empty when the
length already exceeds 31, as in Python). -/
def convertChunk (sub : List Char) : Except PyErr (List Char) :=
  (pyIntBase36 sub).map fun n =>
    List.replicate (31 - (intBinDigits n).length) '0' ++ intBinDigits n

/-- Python `[perms[j:j+6] for j in range(0, len(perms), 6)]`: consecutive chunks
of six characters, the last possibly shorter. -/
def chunks6Fuel : Nat → List Char → List (List Char)
  | 0, _ => []
  | _, [] => []
  | fuel + 1, c :: cs => ((c :: cs).take 6) :: chunks6Fuel fuel ((c :: cs).drop 6)

/-- Chunking with enough fuel for the whole line. -/
def chunks6 (cs : List Char) : List (List Char) := chunks6Fuel cs.length cs

/-- Python `str.splitlines` over the ASCII line boundaries
`\n`, `\r`, `\r\n`, `\v`, `\f`, `\x1c`, `\x1d`, `\x1e`. -/
def isLineBreak (c : Char) : Bool :=
  c = '\n' || c = '\r' || c = '\x0b' || c = '\x0c' ||
  c = '\x1c' || c = '\x1d' || c = '\x1e'

/-- Worker for `pySplitlines`; `acc` is the current line, reversed. -/
def splitlinesAux : List Char → List Char → List (List Char)
  | [], acc => if acc.isEmpty then [] else [acc.reverse]
  | '\r' :: '\n' :: rest, acc => acc.reverse :: splitlinesAux rest []
  | c :: rest, acc =>
    if isLineBreak c then acc.reverse :: splitlinesAux rest []
    else splitlinesAux rest (c :: acc)

/-- Python `str.splitlines` (no trailing empty line for a terminator). -/
def pySplitlines (cs : List Char) : List (List Char) := splitlinesAux cs []

/-- Python `str.rstrip()`. -/
def pyRstrip (cs : List Char) : List Char := (cs.reverse.dropWhile isPyWs).reverse

/-- The decoded per-forum bit arrays: `str(forum_id)` keyed strings of
binary digits. -/
abbrev Acl := List (String × List Char)

/-- The per-user chunk memo `seq_cache`: chunk text to converted bits. -/
abbrev SeqCache := List (List Char × List Char)

/-- Decode the chunks of one line, threading `seq_cache`, concatenating
each converted 31-bit group in order. -/
def decodeChunks : SeqCache → List (List Char) → Except PyErr (SeqCache × List Char)
  | cache, [] => .ok (cache, [])
  | cache, sub :: rest =>
    match dictGet sub cache with
    | some converted =>
      (decodeChunks cache rest).map fun p => (p.1, converted ++ p.2)
    | none =>
      match convertChunk sub with
      | .error e => .error e
      | .ok converted =>
        (decodeChunks (dictInsert sub converted cache) rest).map fun p =>
          (p.1, converted ++ p.2)

/-- Python `str(n)` digits for a natural number, fuel-driven. -/
def natDigitsAux : Nat → Nat → List Char
  | 0, _ => []
  | fuel + 1, n =>
    if n < 10 then [Char.ofNat (48 + n)]
    else natDigitsAux fuel (n / 10) ++ [Char.ofNat (48 + n % 10)]

/-- Python `str(n)` for a natural number. -/
def pyStrNat (n : Nat) : String := String.mk (natDigitsAux (n + 1) n)

/-- Python `str(i)` for an integer. -/
def pyStr : Int → String
  | .ofNat n => pyStrNat n
  | .negSucc n => String.mk ('-' :: (pyStrNat (n + 1)).data)

/-- The per-line loop of `_parse_user_permissions`: `forum_id` enumerates
all lines, blank lines are skipped (`continue`), other lines are decoded
and stored under the key `str(forum_id)`. -/
def parsePermsAux : SeqCache → Acl → Nat → List (List Char) → Except PyErr Acl
  | _, acl, _, [] => .ok acl
  | cache, acl, forumId, line :: rest =>
    if line.isEmpty then parsePermsAux cache acl (forumId + 1) rest
    else
      match decodeChunks cache (chunks6 line) with
      | .error e => .error e
      | .ok (cache', bits) =>
        parsePermsAux cache' (dictInsert (pyStrNat forumId) bits acl) (forumId + 1) rest

/-- The decoder `UserAcl._parse_user_permissions`: rstrip, splitlines, then decode each
non-blank line into its per-forum bit array. -/
def parseUserPermissions (raw : String) : Except PyErr Acl :=
  parsePermsAux [] [] 0 (pySplitlines (pyRstrip raw.data))

/-- One raw catalog record as the code consumes it: the three fields it
subscripts, each possibly absent from the row dictionary. -/
structure RawOption where
  auth_option : Option String
  is_local : Option PyVal
  is_global : Option PyVal
  deriving DecidableEq, Repr

/-- The two option index tables built by `_parse_acl_options`
(dict keys `'local'` and `'global'`). -/
structure AclOptions where
  localOpts : List (String × Nat)
  globalOpts : List (String × Nat)
  deriving DecidableEq, Repr

/-- One flag branch of the `_parse_acl_options` loop body:
`if opt['is_local'] == 1: acl_options['local'][opt['auth_option']] = index;
index += 1`.  A missing subscript raises `KeyError`. -/
def applyFlag (flag : Option PyVal) (name : Option String)
    (d : List (String × Nat)) (i : Nat) : Except PyErr (List (String × Nat) × Nat) :=
  match flag with
  | none => .error .keyError
  | some v =>
    if pyEqOne v then
      match name with
      | none => .error .keyError
      | some nm => .ok (dictInsert nm i d, i + 1)
    else .ok (d, i)

/-- The `_parse_acl_options` loop: `is_local` is tested first, then
`is_global`, with independent running counters. -/
def parseAclOptionsAux : List RawOption → List (String × Nat) → List (String × Nat) →
    Nat → Nat → Except PyErr AclOptions
  | [], locs, globs, _, _ => .ok ⟨locs, globs⟩
  | opt :: rest, locs, globs, li, gi =>
    match applyFlag opt.is_local opt.auth_option locs li with
    | .error e => .error e
    | .ok (locs', li') =>
      match applyFlag opt.is_global opt.auth_option globs gi with
      | .error e => .error e
      | .ok (globs', gi') => parseAclOptionsAux rest locs' globs' li' gi'

/-- The parser `UserAcl._parse_acl_options`. -/
def parseAclOptions (raw : List RawOption) : Except PyErr AclOptions :=
  parseAclOptionsAux raw [] [] 0 0

/-- The lookup-result memo `_acl_lookup_cache`:
`str(forum_id)` to (bare option name to cached bool). -/
abbrev LookupCache := List (String × List (String × Bool))

/-- The state of a `UserAcl` instance. -/
structure UserAcl where
  acl_options : AclOptions
  acl : Acl
  acl_lookup_cache : LookupCache
  deriving DecidableEq, Repr

/-- Constructor `UserAcl.__init__`: parse the catalog, then the permission blob; either
parse error propagates to the caller of the constructor. -/
def UserAcl.make (rawAclOptions : List RawOption) (rawUserPermissions : String) :
    Except PyErr UserAcl :=
  match parseAclOptions rawAclOptions with
  | .error e => .error e
  | .ok opts =>
    match parseUserPermissions rawUserPermissions with
    | .error e => .error e
    | .ok acl => .ok ⟨opts, acl, []⟩

/-- Python `privilege.startswith('!')` and the `privilege[1:]` slice. -/
def parseNegation : List Char → Bool × List Char
  | [] => (false, [])
  | c :: rest => if c = '!' then (true, rest) else (false, c :: rest)

/-- The recorded negation flag of a query string. -/
def isNegated (privilege : String) : Bool := (parseNegation privilege.data).fst

/-- The bare (negation-stripped) option name of a query string. -/
def bareOption (privilege : String) : String := String.mk (parseNegation privilege.data).snd

/-- Python `bool(int(permission))` for one bit-array character: a decimal digit
maps to its truth value, anything else raises `ValueError` (uncaught in
`has_privilege`). -/
def boolIntStr (c : Char) : Except PyErr Bool :=
  if '0' ≤ c ∧ c ≤ '9' then .ok (decide (c ≠ '0')) else .error .valueError

/-- Model of `cache.setdefault(fid, {})[option] = v` (and the later plain
assignments, whose outer key already exists by then). -/
def cacheSet (c : LookupCache) (fid option : String) (v : Bool) : LookupCache :=
  dictInsert fid (dictInsert option v ((dictGet fid c).getD [])) c

/-- Python string subscript `s[i]` for a non-negative index: the character
when in range, `none` for an `IndexError`. -/
def pyIndex (cs : List Char) (i : Nat) : Option Char := cs.get? i

/-- The global-permission step of `has_privilege`: `none` when the guard
fails or the bit index is out of range (`IndexError: pass`), `some v` when
the forum-0 bit was read, `ValueError` when the bit character is not a
decimal digit. -/
def globalStep (opts : AclOptions) (acl : Acl) (option : String) :
    Except PyErr (Option Bool) :=
  match dictGet option opts.globalOpts, dictGet "0" acl with
  | some idx, some bits =>
    match pyIndex bits idx with
    | none => .ok none
    | some ch => (boolIntStr ch).map some
  | _, _ => .ok none

/-- The local-permission step of `has_privilege`: only for a forum other
than `'0'` and an option with a local index; the forum's bit array
defaults to 31 zero bits. -/
def localStep (opts : AclOptions) (acl : Acl) (option fid : String) :
    Except PyErr (Option Bool) :=
  if fid ≠ "0" then
    match dictGet option opts.localOpts with
    | some idx =>
      match pyIndex ((dictGet fid acl).getD (List.replicate 31 '0')) idx with
      | none => .ok none
      | some ch => (boolIntStr ch).map some
    | none => .ok none
  else .ok none

/-- The body of `has_privilege` after negation parsing: initialize the
cache slot to `False`, run the global step (assigning the bit value), run
the local step (or-ing the bit value in), and return the final cached
value together with the updated cache. -/
def privCore (opts : AclOptions) (acl : Acl) (cache : LookupCache)
    (option fid : String) : Except PyErr (Bool × LookupCache) :=
  let cache0 := cacheSet cache fid option false
  match globalStep opts acl option with
  | .error e => .error e
  | .ok gw =>
    let base1 := gw.getD false
    let cache1 := match gw with
      | some v => cacheSet cache0 fid option v
      | none => cache0
    match localStep opts acl option fid with
    | .error e => .error e
    | .ok lw =>
      match lw with
      | some v => .ok (base1 || v, cacheSet cache1 fid option (base1 || v))
      | none => .ok (base1, cache1)

/-- Method `UserAcl.has_privilege(privilege, forum_id)`: the final result is the
negation flag xor-ed with the cached base value. -/
def hasPrivilege (u : UserAcl) (privilege : String) (forumId : Int) :
    Except PyErr (Bool × UserAcl) :=
  match privCore u.acl_options u.acl u.acl_lookup_cache (bareOption privilege) (pyStr forumId) with
  | .error e => .error e
  | .ok (b, cache') => .ok ((isNegated privilege).xor b, ⟨u.acl_options, u.acl, cache'⟩)

/-- The `has_privileges` loop: `output |= has_privilege(option, forum_id)`
over all supplied names. -/
def hasPrivilegesAux (forumId : Int) : UserAcl → Bool → List String →
    Except PyErr (Bool × UserAcl)
  | u, output, [] => .ok (output, u)
  | u, output, p :: rest =>
    match hasPrivilege u p forumId with
    | .error e => .error e
    | .ok (r, u') => hasPrivilegesAux forumId u' (output || r) rest

/-- Method `UserAcl.has_privileges(*privileges, forum_id=...)`. -/
def hasPrivileges (u : UserAcl) (privileges : List String) (forumId : Int) :
    Except PyErr (Bool × UserAcl) :=
  hasPrivilegesAux forumId u false privileges

/-- Well-formedness of the decoded bit arrays: every stored character is a
binary digit.  Arrays decoded from sign-free chunks have this shape; a
negative chunk such as `"-11111"` leaves a stray `b` character behind. -/
def aclWF (acl : Acl) : Bool :=
  acl.all fun kv => kv.2.all fun c => c = '0' || c = '1'

/-- A `UserAcl` whose bit arrays hold only `'0'`/`'1'` characters. -/
def UserAcl.bitsWF (u : UserAcl) : Bool := aclWF u.acl

/-- The number of bit-array subscript reads (`self._acl['0'][...]` and
`self._acl.get(str_forum_id, ...)[...]`) performed by one `has_privilege`
call: one for the global block whenever its guard holds and one for the
local block whenever its guard holds.  A call answered from the memo
without recomputation would perform none. -/
def hasPrivilegeBitReads (u : UserAcl) (privilege : String) (forumId : Int) : Nat :=
  (match dictGet (bareOption privilege) u.acl_options.globalOpts, dictGet "0" u.acl with
   | some _, some _ => 1
   | _, _ => 0) +
  (if pyStr forumId ≠ "0" ∧ (dictGet (bareOption privilege) u.acl_options.localOpts).isSome
   then 1 else 0)

/-- A chunk that `int(sub, 36)` accepts. -/
def chunkParses (c : List Char) : Bool := (pyIntBase36 c).isOk

/-- Every chunk of every non-blank line of the blob parses. -/
def allChunksParse (raw : String) : Bool :=
  (pySplitlines (pyRstrip raw.data)).all fun l => l.isEmpty || (chunks6 l).all chunkParses

/-- The blob lies inside the modelled (ASCII) alphabet. -/
def allAscii (raw : String) : Bool := raw.data.all fun c => c.toNat < 128

/-- The converted bits of a chunk whose conversion succeeds (`[]` junk
otherwise; only used under hypotheses ruling the error out). -/
def conv (c : List Char) : List Char :=
  match convertChunk c with
  | .ok bits => bits
  | .error _ => []

/-- A chunk whose base-36 value is a natural number below `2 ^ 31`. -/
def chunkSmall (c : List Char) : Bool :=
  match pyIntBase36 c with
  | .ok (Int.ofNat n) => decide (n < 2 ^ 31)
  | _ => false

/-- A six-character chunk over the base-36 alphabet with value below
`2 ^ 31`. -/
def goodChunk (c : List Char) : Bool :=
  decide (c.length = 6) && c.all isBase36Char && chunkSmall c

/-- Every non-blank line of the blob splits into good chunks. -/
def goodRaw (raw : String) : Bool :=
  (pySplitlines (pyRstrip raw.data)).all fun l => l.isEmpty || (chunks6 l).all goodChunk

/-- The chunk memo `seq_cache` only holds correct conversions. -/
def SeqCacheWF (cache : SeqCache) : Prop :=
  ∀ p ∈ cache, convertChunk p.1 = .ok p.2

/-- Python truth of `opt[flag] == 1` with an absent flag read as a plain
value test (used only to describe record shapes, not by the parser). -/
def flagIsOne : Option PyVal → Bool
  | some v => pyEqOne v
  | none => false

/-- A record the `_parse_acl_options` loop can process without a
`KeyError`: both flag fields present, and the name present whenever a
flag fires. -/
def recordOK (r : RawOption) : Bool :=
  r.is_local.isSome && r.is_global.isSome &&
  (!flagIsOne r.is_local || r.auth_option.isSome) &&
  (!flagIsOne r.is_global || r.auth_option.isSome)

/-- The names of the records flagged local, in input order. -/
def localFlaggedNames (raw : List RawOption) : List String :=
  raw.filterMap fun r => if flagIsOne r.is_local then r.auth_option else none

/-- The names of the records flagged global, in input order. -/
def globalFlaggedNames (raw : List RawOption) : List String :=
  raw.filterMap fun r => if flagIsOne r.is_global then r.auth_option else none

/-- Names enumerated with consecutive indices starting at `i`. -/
def enumFrom : Nat → List String → List (String × Nat)
  | _, [] => []
  | i, x :: xs => (x, i) :: enumFrom (i + 1) xs

/-- The table's index values are exactly the dense range `0..n-1` where
`n` is the number of names held by the table. -/
def denseValues (d : List (String × Nat)) : Bool :=
  (List.range d.length).all fun i => (d.map Prod.snd).contains i

/-- A concrete state: one global option `a` at bit index 0, forum 0 bit
array `"1"`, empty lookup cache. -/
def sampleAcl : UserAcl := ⟨⟨[], [("a", 0)]⟩, [("0", ['1'])], []⟩

/-- State `sampleAcl` after one `has_privilege("a", 0)` call. -/
def sampleAcl' : UserAcl := ⟨⟨[], [("a", 0)]⟩, [("0", ['1'])], [("0", [("a", true)])]⟩

/-- The duplicate-name catalog `[a(local), a(local)]`. -/
def dupCatalog : List RawOption :=
  [⟨some "a", some (.vInt 1), some (.vInt 0)⟩, ⟨some "a", some (.vInt 1), some (.vInt 0)⟩]

/-- A well-formed catalog with distinct names: `a` local, `b` local and
global. -/
def okCatalog : List RawOption :=
  [⟨some "a", some (.vInt 1), some (.vInt 0)⟩, ⟨some "b", some (.vInt 1), some (.vInt 1)⟩]

/-- A catalog whose single record carries present but non-`1` flag values
(a string and `None`). -/
def mixedCatalog : List RawOption := [⟨some "c", some (.vStr "1"), some .vNone⟩]

/-- State `sampleAcl` after the two calls of `has_privileges(("b", "a"), 0)`. -/
def sampleAcl2 : UserAcl :=
  ⟨⟨[], [("a", 0)]⟩, [("0", ['1'])], [("0", [("b", false), ("a", true)])]⟩

/-! ### Association-list (Python dict) lemmas -/

theorem dictGet_mem {α β : Type} [DecidableEq α] {k : α} {v : β} {d : List (α × β)}
    (h : dictGet k d = some v) : (k, v) ∈ d := by
  induction d with
  | nil => simp [dictGet] at h
  | cons p rest ih =>
    obtain ⟨k', v'⟩ := p
    by_cases hk : k = k'
    · subst hk
      simp [dictGet] at h
      simp [h]
    · simp [dictGet, hk] at h
      exact List.mem_cons_of_mem _ (ih h)

theorem mem_dictInsert {α β : Type} [DecidableEq α] {p : α × β} {k : α} {v : β}
    {d : List (α × β)} (h : p ∈ dictInsert k v d) : p = (k, v) ∨ p ∈ d := by
  induction d with
  | nil => simpa [dictInsert] using h
  | cons q rest ih =>
    obtain ⟨k', v'⟩ := q
    by_cases hk : k' = k
    · subst hk
      simp [dictInsert] at h
      rcases h with h | h
      · exact Or.inl (by simp [h])
      · exact Or.inr (List.mem_cons_of_mem _ h)
    · simp [dictInsert, hk] at h
      rcases h with h | h
      · exact Or.inr (by simp [h])
      · rcases ih h with h' | h'
        · exact Or.inl h'
        · exact Or.inr (List.mem_cons_of_mem _ h')

theorem dictGet_dictInsert_self {α β : Type} [DecidableEq α] (k : α) (v : β)
    (d : List (α × β)) : dictGet k (dictInsert k v d) = some v := by
  induction d with
  | nil => simp [dictGet, dictInsert]
  | cons q rest ih =>
    obtain ⟨k', v'⟩ := q
    by_cases hk : k' = k
    · subst hk
      simp [dictGet, dictInsert]
    · simp [dictInsert, hk, dictGet, Ne.symm hk, ih]

theorem dictGet_dictInsert_isSome {α β : Type} [DecidableEq α] (a k : α) (v : β)
    (d : List (α × β)) :
    (dictGet a (dictInsert k v d)).isSome = true ↔ a = k ∨ (dictGet a d).isSome = true := by
  induction d with
  | nil =>
    by_cases hak : a = k <;> simp [dictGet, dictInsert, hak]
  | cons q rest ih =>
    obtain ⟨k', v'⟩ := q
    by_cases hk : k' = k
    · subst hk
      by_cases hak : a = k' <;> simp [dictGet, dictInsert, hak]
    · by_cases hak : a = k'
      · subst hak
        simp [dictGet, dictInsert, hk]
      · simp [dictGet, dictInsert, hk, hak, ih]

theorem dictInsert_fresh {α β : Type} [DecidableEq α] {k : α} (v : β)
    {d : List (α × β)} (h : dictGet k d = none) : dictInsert k v d = d ++ [(k, v)] := by
  induction d with
  | nil => rfl
  | cons q rest ih =>
    obtain ⟨k', v'⟩ := q
    by_cases hk : k = k'
    · subst hk
      simp [dictGet] at h
    · simp [dictGet, hk] at h
      simp [dictInsert, Ne.symm hk, ih h]

theorem dictGet_append_left {α β : Type} [DecidableEq α] {k : α} {v : β}
    {d₁ : List (α × β)} (d₂ : List (α × β)) (h : dictGet k d₁ = some v) :
    dictGet k (d₁ ++ d₂) = some v := by
  induction d₁ with
  | nil => simp [dictGet] at h
  | cons q rest ih =>
    obtain ⟨k', v'⟩ := q
    by_cases hk : k = k'
    · subst hk
      simp [dictGet] at h ⊢
      exact h
    · simp [dictGet, hk] at h ⊢
      exact ih h

theorem dictGet_append_right {α β : Type} [DecidableEq α] {k : α}
    {d₁ : List (α × β)} (d₂ : List (α × β)) (h : dictGet k d₁ = none) :
    dictGet k (d₁ ++ d₂) = dictGet k d₂ := by
  induction d₁ with
  | nil => rfl
  | cons q rest ih =>
    obtain ⟨k', v'⟩ := q
    by_cases hk : k = k'
    · subst hk
      simp [dictGet] at h
    · simp [dictGet, hk] at h ⊢
      exact ih h


/-! ### Query-engine lemmas -/

theorem boolIntStr_zero : boolIntStr '0' = .ok false := by decide

theorem boolIntStr_one : boolIntStr '1' = .ok true := by decide

theorem parseNegation_eq_of_not {cs : List Char} (h : (parseNegation cs).fst = false) :
    parseNegation cs = (false, cs) := by
  cases cs with
  | nil => rfl
  | cons c rest =>
    by_cases hc : c = '!'
    · simp [parseNegation, hc] at h
    · simp [parseNegation, hc]

theorem localStep_ok (opts : AclOptions) (acl : Acl) (option fid : String)
    (hwf : aclWF acl = true) : ∃ lw, localStep opts acl option fid = .ok lw := by
  unfold localStep
  by_cases hf : fid ≠ "0"
  · rw [if_pos hf]
    cases hl : dictGet option opts.localOpts with
    | none => exact ⟨none, by simp only [hl]⟩
    | some idx =>
      cases ha : dictGet fid acl with
      | none =>
        cases hb : pyIndex (List.replicate 31 '0') idx with
        | none => exact ⟨none, by simp only [hl, ha, Option.getD_none, hb]⟩
        | some ch =>
          have hmem : ch ∈ List.replicate 31 '0' := List.get?_mem hb
          have hch : ch = '0' := List.eq_of_mem_replicate hmem
          subst hch
          exact ⟨some false,
            by simp only [hl, ha, Option.getD_none, hb, boolIntStr_zero, Except.map]⟩
      | some bits =>
        have hmem : (fid, bits) ∈ acl := dictGet_mem ha
        have hball : bits.all (fun c => c = '0' || c = '1') = true := by
          have := (List.all_eq_true.mp hwf) _ hmem
          simpa using this
        cases hb : pyIndex bits idx with
        | none => exact ⟨none, by simp only [hl, ha, Option.getD_some, hb]⟩
        | some ch =>
          have hch : (decide (ch = '0') || decide (ch = '1')) = true := by
            have := (List.all_eq_true.mp hball) _ (List.get?_mem hb)
            simpa using this
          rcases Bool.or_eq_true_iff.mp hch with hch' | hch'
          · have hch0 : ch = '0' := by simpa using hch'
            subst hch0
            exact ⟨some false,
              by simp only [hl, ha, Option.getD_some, hb, boolIntStr_zero, Except.map]⟩
          · have hch1 : ch = '1' := by simpa using hch'
            subst hch1
            exact ⟨some true,
              by simp only [hl, ha, Option.getD_some, hb, boolIntStr_one, Except.map]⟩
  · rw [if_neg hf]
    exact ⟨none, rfl⟩

theorem privCore_fst_stable (opts : AclOptions) (acl : Acl) (c c' : LookupCache)
    (option fid : String) :
    (privCore opts acl c option fid).map Prod.fst
      = (privCore opts acl c' option fid).map Prod.fst := by
  unfold privCore
  cases globalStep opts acl option with
  | error e => rfl
  | ok gw =>
    cases localStep opts acl option fid with
    | error e => cases gw <;> rfl
    | ok lw => cases gw <;> cases lw <;> rfl

theorem map_fst_ok {e : Except PyErr (Bool × LookupCache)} {b : Bool}
    (h : e.map Prod.fst = .ok b) : ∃ c, e = .ok (b, c) := by
  cases e with
  | error e => simp [Except.map] at h
  | ok p =>
    obtain ⟨b', c⟩ := p
    simp [Except.map] at h
    exact ⟨c, by rw [h]⟩

theorem hasPrivilege_frame {u : UserAcl} {p : String} {f : Int} {r : Bool} {u' : UserAcl}
    (h : hasPrivilege u p f = .ok (r, u')) :
    u'.acl_options = u.acl_options ∧ u'.acl = u.acl := by
  unfold hasPrivilege at h
  cases hc : privCore u.acl_options u.acl u.acl_lookup_cache (bareOption p) (pyStr f) with
  | error e => rw [hc] at h; cases h
  | ok bc =>
    obtain ⟨b, c⟩ := bc
    rw [hc] at h
    have h' : Except.ok ((isNegated p).xor b,
        ({ acl_options := u.acl_options, acl := u.acl, acl_lookup_cache := c } : UserAcl))
        = Except.ok (r, u') := h
    simp only [Except.ok.injEq, Prod.mk.injEq] at h'
    rw [← h'.2]
    exact ⟨rfl, rfl⟩

theorem hasPrivilege_fst_stable {u v : UserAcl} {p : String} {f : Int} {r : Bool}
    {u' : UserAcl} (ho : u.acl_options = v.acl_options) (ha : u.acl = v.acl)
    (h : hasPrivilege u p f = .ok (r, u')) :
    ∃ w, hasPrivilege v p f = .ok (r, w) := by
  unfold hasPrivilege at h ⊢
  cases hc : privCore u.acl_options u.acl u.acl_lookup_cache (bareOption p) (pyStr f) with
  | error e => rw [hc] at h; cases h
  | ok bc =>
    obtain ⟨b, c⟩ := bc
    rw [hc] at h
    have h' : Except.ok ((isNegated p).xor b,
        ({ acl_options := u.acl_options, acl := u.acl, acl_lookup_cache := c } : UserAcl))
        = Except.ok (r, u') := h
    simp only [Except.ok.injEq, Prod.mk.injEq] at h'
    have hstab := privCore_fst_stable u.acl_options u.acl u.acl_lookup_cache
      v.acl_lookup_cache (bareOption p) (pyStr f)
    rw [hc] at hstab
    rw [ho, ha] at hstab
    have hred : (Except.ok ((b, c) : Bool × LookupCache)).map Prod.fst
        = (Except.ok b : Except PyErr Bool) := rfl
    rw [hred] at hstab
    obtain ⟨c', hc'⟩ := map_fst_ok hstab.symm
    rw [hc']
    exact ⟨⟨v.acl_options, v.acl, c'⟩, by rw [← h'.1]⟩

theorem hasPrivilegesAux_frame (f : Int) :
    ∀ (ps : List String) (u : UserAcl) (b res : Bool) (u' : UserAcl),
      hasPrivilegesAux f u b ps = .ok (res, u') →
      u'.acl_options = u.acl_options ∧ u'.acl = u.acl := by
  intro ps
  induction ps with
  | nil =>
    intro u b res u' h
    have h' : (Except.ok ((b, u) : Bool × UserAcl)) = Except.ok (res, u') := h
    simp only [Except.ok.injEq, Prod.mk.injEq] at h'
    rw [← h'.2]
    exact ⟨rfl, rfl⟩
  | cons p rest ih =>
    intro u b res u' h
    unfold hasPrivilegesAux at h
    cases hc : hasPrivilege u p f with
    | error e => rw [hc] at h; cases h
    | ok ru =>
      obtain ⟨r, u1⟩ := ru
      rw [hc] at h
      have h1 := hasPrivilege_frame hc
      have h2 := ih u1 (b || r) res u' h
      exact ⟨h2.1.trans h1.1, h2.2.trans h1.2⟩

theorem hasPrivilegesAux_iff (f : Int) (u0 : UserAcl) :
    ∀ (ps : List String) (u : UserAcl) (b res : Bool) (u' : UserAcl),
      u.acl_options = u0.acl_options → u.acl = u0.acl →
      hasPrivilegesAux f u b ps = .ok (res, u') →
      (res = true ↔ b = true ∨ ∃ p ∈ ps, ∃ w, hasPrivilege u0 p f = .ok (true, w)) := by
  intro ps
  induction ps with
  | nil =>
    intro u b res u' _ _ h
    have h' : (Except.ok ((b, u) : Bool × UserAcl)) = Except.ok (res, u') := h
    simp only [Except.ok.injEq, Prod.mk.injEq] at h'
    rw [← h'.1]
    simp
  | cons p rest ih =>
    intro u b res u' ho ha h
    unfold hasPrivilegesAux at h
    cases hc : hasPrivilege u p f with
    | error e => rw [hc] at h; cases h
    | ok ru =>
      obtain ⟨r, u1⟩ := ru
      rw [hc] at h
      have hfr := hasPrivilege_frame hc
      have ih' := ih u1 (b || r) res u' (hfr.1.trans ho) (hfr.2.trans ha) h
      obtain ⟨w0, hw0⟩ := hasPrivilege_fst_stable ho ha hc
      constructor
      · intro hres
        rcases ih'.mp hres with hbr | ⟨q, hq, w, hw⟩
        · rcases Bool.or_eq_true_iff.mp hbr with hb | hr
          · exact Or.inl hb
          · subst hr
            exact Or.inr ⟨p, List.mem_cons_self _ _, w0, hw0⟩
        · exact Or.inr ⟨q, List.mem_cons_of_mem _ hq, w, hw⟩
      · intro hor
        apply ih'.mpr
        rcases hor with hb | ⟨q, hq, w, hw⟩
        · exact Or.inl (by simp [hb])
        · rcases List.mem_cons.mp hq with rfl | hq'
          · have heq := hw0.symm.trans hw
            simp only [Except.ok.injEq, Prod.mk.injEq] at heq
            exact Or.inl (by simp [heq.1])
          · exact Or.inr ⟨q, hq', w, hw⟩

/-! ### Claim theorems: query engine -/

/-- Claim C3: for any state, option name `x` not starting with `!`, and
forum id, querying `"!" ++ x` returns exactly the boolean negation of
querying `x` from the same state (the negation flag is xor-ed onto the
computed base value), with the same resulting state. -/
theorem negation_law (u : UserAcl) (x : String) (f : Int) (r : Bool) (u' : UserAcl)
    (hx : isNegated x = false) (h : hasPrivilege u x f = .ok (r, u')) :
    hasPrivilege u ("!" ++ x) f = .ok (!r, u') := by
  have hdata : ("!" ++ x).data = '!' :: x.data := by
    cases x
    rfl
  have hbang : parseNegation ('!' :: x.data) = (true, x.data) := by
    simp [parseNegation]
  have hpn : parseNegation x.data = (false, x.data) := parseNegation_eq_of_not hx
  have hneg : isNegated ("!" ++ x) = true := by
    unfold isNegated
    rw [hdata, hbang]
  have hbare : bareOption ("!" ++ x) = bareOption x := by
    unfold bareOption
    rw [hdata, hbang, hpn]
  unfold hasPrivilege at h ⊢
  rw [hbare, hneg]
  cases hc : privCore u.acl_options u.acl u.acl_lookup_cache (bareOption x) (pyStr f) with
  | error e => rw [hc] at h; cases h
  | ok bc =>
    obtain ⟨b, c⟩ := bc
    rw [hc] at h
    have h' : Except.ok ((isNegated x).xor b,
        ({ acl_options := u.acl_options, acl := u.acl, acl_lookup_cache := c } : UserAcl))
        = Except.ok (r, u') := h
    simp only [Except.ok.injEq, Prod.mk.injEq] at h'
    have hb : b = r := by
      have := h'.1
      rw [hx, Bool.false_xor] at this
      exact this
    show Except.ok (true.xor b,
        ({ acl_options := u.acl_options, acl := u.acl, acl_lookup_cache := c } : UserAcl))
        = Except.ok (!r, u')
    rw [Bool.true_xor, hb, h'.2]

/-- Claim C4: in a state whose bit arrays are binary strings, a
non-negated option whose global bit (in forum 0's array, at the option's
global index) is `'1'` resolves true at every forum id: the local step
only ors its bit in and can never clear the global grant. -/
theorem local_never_revokes_global (u : UserAcl) (x : String) (gi : Nat)
    (bits : List Char) (hwf : u.bitsWF = true) (hx : isNegated x = false)
    (hg : dictGet (bareOption x) u.acl_options.globalOpts = some gi)
    (h0 : dictGet "0" u.acl = some bits) (hbit : pyIndex bits gi = some '1')
    (f : Int) : (hasPrivilege u x f).map Prod.fst = .ok true := by
  have hglobal : globalStep u.acl_options u.acl (bareOption x) = .ok (some true) := by
    unfold globalStep
    simp only [hg, h0, hbit, boolIntStr_one, Except.map]
  obtain ⟨lw, hlocal⟩ := localStep_ok u.acl_options u.acl (bareOption x) (pyStr f) hwf
  cases lw with
  | none =>
    unfold hasPrivilege privCore
    simp only [hglobal, hlocal, Option.getD_some, hx, Except.map, Bool.false_xor]
  | some v =>
    unfold hasPrivilege privCore
    simp only [hglobal, hlocal, Option.getD_some, hx, Except.map, Bool.false_xor,
      Bool.true_or]

/-- Claim C8: querying an option absent from both index tables never
raises and returns exactly the negation flag: `false` for a bare name,
`true` under a leading `!`. -/
theorem missing_option_resolves (u : UserAcl) (p : String) (f : Int)
    (hg : dictGet (bareOption p) u.acl_options.globalOpts = none)
    (hl : dictGet (bareOption p) u.acl_options.localOpts = none) :
    (hasPrivilege u p f).map Prod.fst = .ok (isNegated p) := by
  have hglobal : globalStep u.acl_options u.acl (bareOption p) = .ok none := by
    unfold globalStep
    cases h0 : dictGet "0" u.acl with
    | none => simp only [hg, h0]
    | some bits => simp only [hg, h0]
  have hlocal : localStep u.acl_options u.acl (bareOption p) (pyStr f) = .ok none := by
    unfold localStep
    by_cases hf : pyStr f ≠ "0"
    · rw [if_pos hf]
      simp only [hl]
    · rw [if_neg hf]
  unfold hasPrivilege privCore
  simp only [hglobal, hlocal, Option.getD_none, Except.map, Bool.xor_false]

/-- Claim C5 (amended): a second `has_privilege` call with identical
arguments yields the same result as the first; the cache key is the bare
option name and negation is re-applied on each call.  (The code does not
skip recomputation — see the counterexample theorem — but recomputation
is deterministic in the non-cache state, so the results agree.) -/
theorem repeat_query_same_result (u : UserAcl) (p : String) (f : Int) (r : Bool)
    (u' : UserAcl) (h : hasPrivilege u p f = .ok (r, u')) :
    ∃ u'', hasPrivilege u' p f = .ok (r, u'') := by
  have hfr := hasPrivilege_frame h
  exact hasPrivilege_fst_stable hfr.1.symm hfr.2.symm h

/-- Claim C5 counterexample: after a first `has_privilege("a", 0)` call the
claim says a repeated identical call returns the memoized boolean without
recomputing it; but the repeated call still performs one bit-array read —
the code resets the cache slot to `False` and recomputes unconditionally,
never serving a query from the memo. -/
theorem repeat_query_recomputes :
    hasPrivilege sampleAcl "a" 0 = .ok (true, sampleAcl')
      ∧ hasPrivilegeBitReads sampleAcl' "a" 0 = 1
      ∧ ¬ hasPrivilegeBitReads sampleAcl' "a" 0 = 0 :=
  ⟨by decide, by decide, by decide⟩

/-- Claim C9: `has_privileges` returns true exactly when `has_privilege`
holds (from the same initial state) for at least one supplied option; in
particular it returns false for an empty option list. -/
theorem has_privileges_or (u : UserAcl) (ps : List String) (f : Int) (b : Bool)
    (u' : UserAcl) (h : hasPrivileges u ps f = .ok (b, u')) :
    (b = true ↔ ∃ p ∈ ps, ∃ w, hasPrivilege u p f = .ok (true, w)) := by
  have := hasPrivilegesAux_iff f u ps u false b u' rfl rfl h
  simpa using this

/-- Claim C10: a `has_privilege` or `has_privileges` call leaves the
parsed option tables and the decoded bit arrays untouched; only the
lookup-cache component of the state may change. -/
theorem queries_preserve_tables :
    (∀ (u : UserAcl) (p : String) (f : Int) (r : Bool) (u' : UserAcl),
      hasPrivilege u p f = .ok (r, u') →
      u'.acl_options = u.acl_options ∧ u'.acl = u.acl) ∧
    (∀ (u : UserAcl) (ps : List String) (f : Int) (b : Bool) (u' : UserAcl),
      hasPrivileges u ps f = .ok (b, u') →
      u'.acl_options = u.acl_options ∧ u'.acl = u.acl) :=
  ⟨fun _ _ _ _ _ h => hasPrivilege_frame h,
   fun _ ps f b u' h => hasPrivilegesAux_frame f ps _ false b u' h⟩

/-! ### Decoder lemmas -/

theorem isOk_map {α β : Type} {e : Except PyErr α} (f : α → β) :
    (e.map f).isOk = e.isOk := by
  cases e <;> rfl

theorem base36_range {c : Char} (hb : isBase36Char c = true) :
    ('0' ≤ c ∧ c ≤ '9') ∨ ('a' ≤ c ∧ c ≤ 'z') ∨ ('A' ≤ c ∧ c ≤ 'Z') := by
  unfold isBase36Char digitVal36 at hb
  split_ifs at hb with h1 h2 h3
  · exact Or.inl h1
  · exact Or.inr (Or.inl h2)
  · exact Or.inr (Or.inr h3)
  · simp at hb

theorem base36_props {c : Char} (hb : isBase36Char c = true) :
    isPyWs c = false ∧ c ≠ '+' ∧ c ≠ '-' ∧ c ≠ '_' := by
  have hrange := base36_range hb
  refine ⟨?_, ?_, ?_, ?_⟩
  · cases hpw : isPyWs c with
    | false => rfl
    | true =>
      exfalso
      simp only [isPyWs, Bool.or_eq_true, decide_eq_true_eq] at hpw
      rcases hrange with h | h | h <;>
        rcases hpw with
          ((((((((rfl | rfl) | rfl) | rfl) | rfl) | rfl) | rfl) | rfl) | rfl) | rfl <;>
        exact absurd h (by decide)
  · rintro rfl
    rcases hrange with h | h | h <;> exact absurd h (by decide)
  · rintro rfl
    rcases hrange with h | h | h <;> exact absurd h (by decide)
  · rintro rfl
    rcases hrange with h | h | h <;> exact absurd h (by decide)

theorem dropWhile_id_of_all {cs : List Char} {p : Char → Bool}
    (h : ∀ c ∈ cs, p c = false) : cs.dropWhile p = cs := by
  cases cs with
  | nil => rfl
  | cons c rest =>
    rw [List.dropWhile_cons, h c (List.mem_cons_self _ _)]
    simp

theorem stripWs_id_of_base36 {cs : List Char} (h : ∀ c ∈ cs, isBase36Char c = true) :
    stripWs cs = cs := by
  unfold stripWs
  have h1 : ∀ c ∈ cs, isPyWs c = false := fun c hc => (base36_props (h c hc)).1
  rw [dropWhile_id_of_all h1]
  rw [dropWhile_id_of_all (fun c hc => h1 c (List.mem_reverse.mp hc))]
  exact List.reverse_reverse cs

theorem parseDigitsRest36_of_base36 {cs : List Char}
    (h : ∀ c ∈ cs, isBase36Char c = true) :
    ∀ acc : Nat, ∃ n, parseDigitsRest36 cs acc = some n := by
  induction cs with
  | nil => intro acc; exact ⟨acc, rfl⟩
  | cons c rest ih =>
    intro acc
    have hc := h c (List.mem_cons_self _ _)
    have hcne : c ≠ '_' := (base36_props hc).2.2.2
    obtain ⟨d, hd⟩ := Option.isSome_iff_exists.mp (by simpa [isBase36Char] using hc)
    obtain ⟨n, hn⟩ := ih (fun x hx => h x (List.mem_cons_of_mem _ hx)) (acc * 36 + d)
    refine ⟨n, ?_⟩
    unfold parseDigitsRest36
    rw [if_neg hcne]
    simp only [hd]
    exact hn

theorem pyIntBase36_of_base36 {cs : List Char} (hne : cs ≠ [])
    (h : ∀ c ∈ cs, isBase36Char c = true) :
    ∃ n : Nat, pyIntBase36 cs = .ok (Int.ofNat n) := by
  cases cs with
  | nil => exact absurd rfl hne
  | cons c rest =>
    have hc := h c (List.mem_cons_self _ _)
    have hprops := base36_props hc
    obtain ⟨d, hd⟩ := Option.isSome_iff_exists.mp (by simpa [isBase36Char] using hc)
    obtain ⟨n, hn⟩ :=
      parseDigitsRest36_of_base36 (fun x hx => h x (List.mem_cons_of_mem _ hx)) d
    have hp : parseDigits36 (c :: rest) = some n := by
      unfold parseDigits36
      simp only [hd]
      exact hn
    refine ⟨n, ?_⟩
    unfold pyIntBase36
    simp only [stripWs_id_of_base36 h, if_neg hprops.2.1, if_neg hprops.2.2.1, hp]

theorem natToBinAux_length_le :
    ∀ (fuel n b : Nat), n ≤ fuel → n < 2 ^ b → (natToBinAux fuel n).length ≤ b := by
  intro fuel
  induction fuel with
  | zero =>
    intro n b hn _
    have h0 : n = 0 := Nat.le_zero.mp hn
    subst h0
    simp [natToBinAux]
  | succ fuel ih =>
    intro n b hn hb
    cases n with
    | zero => simp [natToBinAux]
    | succ m =>
      have hb1 : ∃ b', b = b' + 1 := by
        refine ⟨b - 1, ?_⟩
        have : b ≠ 0 := by
          rintro rfl
          simp at hb
        omega
      obtain ⟨b', rfl⟩ := hb1
      have hdiv : (m + 1) / 2 ≤ fuel := by omega
      have hdiv2 : (m + 1) / 2 < 2 ^ b' := by
        rw [Nat.div_lt_iff_lt_mul (by omega : 0 < 2)]
        calc m + 1 < 2 ^ (b' + 1) := hb
        _ = 2 ^ b' * 2 := by rw [pow_succ]
      have heq : natToBinAux (fuel + 1) (m + 1)
          = natToBinAux fuel ((m + 1) / 2) ++ [if (m + 1) % 2 = 1 then '1' else '0'] := rfl
      rw [heq, List.length_append]
      have hrec := ih ((m + 1) / 2) b' hdiv hdiv2
      simp only [List.length_singleton]
      omega

theorem pyBinDigits_length_le {n b : Nat} (hb : 1 ≤ b) (h : n < 2 ^ b) :
    (pyBinDigits n).length ≤ b := by
  unfold pyBinDigits
  by_cases h0 : n = 0
  · subst h0
    simpa using hb
  · rw [if_neg h0]
    exact natToBinAux_length_le n n b le_rfl h

theorem convertChunk_ok_of_small {cs : List Char} {n : Nat}
    (hp : pyIntBase36 cs = .ok (Int.ofNat n)) (hsmall : n < 2 ^ 31) :
    convertChunk cs
        = .ok (List.replicate (31 - (pyBinDigits n).length) '0' ++ pyBinDigits n)
      ∧ (List.replicate (31 - (pyBinDigits n).length) '0' ++ pyBinDigits n).length = 31 := by
  constructor
  · unfold convertChunk
    rw [hp]
    rfl
  · rw [List.length_append, List.length_replicate]
    have hle : (pyBinDigits n).length ≤ 31 := pyBinDigits_length_le (by omega) hsmall
    omega

theorem conv_eq_of_ok {cs bits : List Char} (h : convertChunk cs = .ok bits) :
    conv cs = bits := by
  unfold conv
  rw [h]

theorem convertChunk_isOk (cs : List Char) : (convertChunk cs).isOk = chunkParses cs := by
  unfold convertChunk chunkParses
  cases pyIntBase36 cs <;> rfl

theorem conv_length_of_small {cs : List Char} (h : chunkSmall cs = true) :
    (conv cs).length = 31 := by
  unfold chunkSmall at h
  cases hp : pyIntBase36 cs with
  | error e =>
    rw [hp] at h
    simp at h
  | ok i =>
    cases i with
    | ofNat n =>
      rw [hp] at h
      have hn : n < 2 ^ 31 := by simpa using h
      have hc := convertChunk_ok_of_small hp hn
      rw [conv_eq_of_ok hc.1]
      exact hc.2
    | negSucc m =>
      rw [hp] at h
      simp at h

theorem chunkSmall_parses {c : List Char} (h : chunkSmall c = true) :
    chunkParses c = true := by
  unfold chunkSmall at h
  unfold chunkParses
  cases hp : pyIntBase36 c with
  | error e =>
    rw [hp] at h
    simp at h
  | ok i => rfl

theorem goodChunk_small {c : List Char} (h : goodChunk c = true) : chunkSmall c = true := by
  unfold goodChunk at h
  simp only [Bool.and_eq_true] at h
  exact h.2

theorem seqCacheWF_nil : SeqCacheWF [] := by
  intro p hp
  exact absurd hp (List.not_mem_nil p)

theorem seqCacheWF_insert {cache : SeqCache} {sub bits : List Char}
    (hwf : SeqCacheWF cache) (h : convertChunk sub = .ok bits) :
    SeqCacheWF (dictInsert sub bits cache) := by
  intro p hp
  rcases mem_dictInsert hp with rfl | hp'
  · exact h
  · exact hwf p hp'

theorem decodeChunks_isOk : ∀ (chunks : List (List Char)) (cache : SeqCache),
    SeqCacheWF cache → (decodeChunks cache chunks).isOk = chunks.all chunkParses := by
  intro chunks
  induction chunks with
  | nil => intro cache _; rfl
  | cons sub rest ih =>
    intro cache hwf
    unfold decodeChunks
    cases hg : dictGet sub cache with
    | some bits =>
      have hconv : convertChunk sub = .ok bits := hwf _ (dictGet_mem hg)
      have hparse : chunkParses sub = true := by
        rw [← convertChunk_isOk, hconv]
        rfl
      simp only [hg, List.all_cons, hparse, Bool.true_and, isOk_map]
      exact ih cache hwf
    | none =>
      cases hc : convertChunk sub with
      | error e =>
        have hparse : chunkParses sub = false := by
          rw [← convertChunk_isOk, hc]
          rfl
        simp only [hg, hc, List.all_cons, hparse, Bool.false_and]
        rfl
      | ok bits =>
        have hparse : chunkParses sub = true := by
          rw [← convertChunk_isOk, hc]
          rfl
        have hwf' := seqCacheWF_insert hwf hc
        simp only [hg, hc, List.all_cons, hparse, Bool.true_and, isOk_map]
        exact ih _ hwf'

theorem decodeChunks_ok : ∀ (chunks : List (List Char)) (cache cache' : SeqCache)
    (bits : List Char), SeqCacheWF cache →
    decodeChunks cache chunks = .ok (cache', bits) →
    SeqCacheWF cache' ∧ bits = (chunks.map conv).flatten := by
  intro chunks
  induction chunks with
  | nil =>
    intro cache cache' bits hwf h
    have h' : (Except.ok ((cache, []) : SeqCache × List Char)) = .ok (cache', bits) := h
    simp only [Except.ok.injEq, Prod.mk.injEq] at h'
    refine ⟨?_, ?_⟩
    · rw [← h'.1]
      exact hwf
    · rw [← h'.2]
      rfl
  | cons sub rest ih =>
    intro cache cache' bits hwf h
    unfold decodeChunks at h
    cases hg : dictGet sub cache with
    | some v =>
      rw [hg] at h
      have hconv : convertChunk sub = .ok v := hwf _ (dictGet_mem hg)
      have h2 : (decodeChunks cache rest).map (fun p => (p.1, v ++ p.2))
          = Except.ok (cache', bits) := h
      cases hrec : decodeChunks cache rest with
      | error e => rw [hrec] at h2; cases h2
      | ok p =>
        obtain ⟨c2, bs⟩ := p
        rw [hrec] at h2
        have h' : (Except.ok ((c2, v ++ bs) : SeqCache × List Char))
            = .ok (cache', bits) := h2
        simp only [Except.ok.injEq, Prod.mk.injEq] at h'
        obtain ⟨hwf2, hbs⟩ := ih cache c2 bs hwf hrec
        refine ⟨?_, ?_⟩
        · rw [← h'.1]
          exact hwf2
        · rw [← h'.2, hbs, List.map_cons, List.flatten_cons, conv_eq_of_ok hconv]
    | none =>
      rw [hg] at h
      cases hc : convertChunk sub with
      | error e => rw [hc] at h; cases h
      | ok v =>
        rw [hc] at h
        have hwf1 := seqCacheWF_insert hwf hc
        have h2 : (decodeChunks (dictInsert sub v cache) rest).map
            (fun p => (p.1, v ++ p.2)) = Except.ok (cache', bits) := h
        cases hrec : decodeChunks (dictInsert sub v cache) rest with
        | error e => rw [hrec] at h2; cases h2
        | ok p =>
          obtain ⟨c2, bs⟩ := p
          rw [hrec] at h2
          have h' : (Except.ok ((c2, v ++ bs) : SeqCache × List Char))
              = .ok (cache', bits) := h2
          simp only [Except.ok.injEq, Prod.mk.injEq] at h'
          obtain ⟨hwf2, hbs⟩ := ih _ c2 bs hwf1 hrec
          refine ⟨?_, ?_⟩
          · rw [← h'.1]
            exact hwf2
          · rw [← h'.2, hbs, List.map_cons, List.flatten_cons, conv_eq_of_ok hc]

theorem parsePermsAux_isOk : ∀ (lines : List (List Char)) (cache : SeqCache) (acl : Acl)
    (fid : Nat), SeqCacheWF cache →
    (parsePermsAux cache acl fid lines).isOk
      = lines.all (fun l => l.isEmpty || (chunks6 l).all chunkParses) := by
  intro lines
  induction lines with
  | nil => intro cache acl fid _; rfl
  | cons line rest ih =>
    intro cache acl fid hwf
    unfold parsePermsAux
    by_cases he : line.isEmpty
    · rw [if_pos he, ih cache acl (fid + 1) hwf]
      simp [he]
    · rw [if_neg he]
      cases hd : decodeChunks cache (chunks6 line) with
      | error e =>
        have hch : (chunks6 line).all chunkParses = false := by
          have h2 := decodeChunks_isOk (chunks6 line) cache hwf
          rw [hd] at h2
          exact h2.symm
        simp [List.all_cons, hch, he, Except.isOk, Except.toBool, hd]
      | ok p =>
        obtain ⟨cache', bits⟩ := p
        have hch : (chunks6 line).all chunkParses = true := by
          have h2 := decodeChunks_isOk (chunks6 line) cache hwf
          rw [hd] at h2
          exact h2.symm
        have hwf' : SeqCacheWF cache' := (decodeChunks_ok _ _ _ _ hwf hd).1
        simp only [hd]
        rw [ih cache' (dictInsert (pyStrNat fid) bits acl) (fid + 1) hwf']
        simp [List.all_cons, hch, he]

theorem conv_flatten_dvd : ∀ chunks : List (List Char),
    (∀ c ∈ chunks, chunkSmall c = true) → 31 ∣ ((chunks.map conv).flatten).length := by
  intro chunks
  induction chunks with
  | nil => intro _; simp
  | cons c rest ih =>
    intro h
    simp only [List.map_cons, List.flatten_cons, List.length_append]
    have h1 : (conv c).length = 31 := conv_length_of_small (h c (List.mem_cons_self _ _))
    obtain ⟨k, hk⟩ := ih (fun x hx => h x (List.mem_cons_of_mem _ hx))
    exact ⟨k + 1, by omega⟩

theorem parsePermsAux_dvd : ∀ (lines : List (List Char)) (cache : SeqCache) (acl : Acl)
    (fid : Nat) (acl' : Acl), SeqCacheWF cache →
    (∀ kv ∈ acl, 31 ∣ (kv.2 : List Char).length) →
    (∀ l ∈ lines, (l.isEmpty || (chunks6 l).all goodChunk) = true) →
    parsePermsAux cache acl fid lines = .ok acl' →
    ∀ kv ∈ acl', 31 ∣ kv.2.length := by
  intro lines
  induction lines with
  | nil =>
    intro cache acl fid acl' _ hacl _ h
    have h' : (Except.ok (acl : Acl)) = .ok acl' := h
    simp only [Except.ok.injEq] at h'
    rw [← h']
    exact hacl
  | cons line rest ih =>
    intro cache acl fid acl' hwf hacl hlines h
    have hline := hlines line (List.mem_cons_self _ _)
    have hrest : ∀ l ∈ rest, (l.isEmpty || (chunks6 l).all goodChunk) = true :=
      fun l hl => hlines l (List.mem_cons_of_mem _ hl)
    unfold parsePermsAux at h
    by_cases he : line.isEmpty
    · rw [if_pos he] at h
      exact ih cache acl (fid + 1) acl' hwf hacl hrest h
    · rw [if_neg he] at h
      have hgood : (chunks6 line).all goodChunk = true := by
        rcases Bool.or_eq_true_iff.mp hline with h1 | h1
        · exact absurd h1 he
        · exact h1
      cases hd : decodeChunks cache (chunks6 line) with
      | error e => rw [hd] at h; cases h
      | ok p =>
        obtain ⟨cache', bits⟩ := p
        rw [hd] at h
        obtain ⟨hwf', hbits⟩ := decodeChunks_ok _ _ _ _ hwf hd
        have hsmall : ∀ c ∈ chunks6 line, chunkSmall c = true := fun c hc =>
          goodChunk_small ((List.all_eq_true.mp hgood) c hc)
        have hdvd : 31 ∣ bits.length := by
          rw [hbits]
          exact conv_flatten_dvd _ hsmall
        have hacl' : ∀ kv ∈ dictInsert (pyStrNat fid) bits acl, 31 ∣ kv.2.length := by
          intro kv hkv
          rcases mem_dictInsert hkv with rfl | hkv'
          · exact hdvd
          · exact hacl kv hkv'
        exact ih cache' _ (fid + 1) acl' hwf' hacl' hrest h

/-! ### Claim theorems: permission decoder -/

/-- Claim C1 (amended): decoding succeeds exactly when every chunk of
every non-blank line is accepted by Python's base-36 integer parsing —
chunks made only of base-36 alphabet characters always are, but a chunk
may also carry a sign, underscores between digits, or surrounding
whitespace and still decode, so characters outside the alphabet do not
always raise.  The `ValueError` (the spec's `DecodeError`) of a rejected
chunk propagates out of the constructor. -/
theorem decode_error_iff :
    (∀ raw : String, allAscii raw = true →
      (parseUserPermissions raw).isOk = allChunksParse raw) ∧
    (∀ cs : List Char, cs ≠ [] → cs.all isBase36Char = true →
      (pyIntBase36 cs).isOk = true) ∧
    (∀ (ro : List RawOption) (raw : String) (o : AclOptions),
      parseAclOptions ro = .ok o →
      UserAcl.make ro raw
        = (parseUserPermissions raw).map fun acl => ⟨o, acl, []⟩) := by
  refine ⟨?_, ?_, ?_⟩
  · intro raw _
    exact parsePermsAux_isOk _ [] [] 0 seqCacheWF_nil
  · intro cs hne hall
    obtain ⟨n, hn⟩ := pyIntBase36_of_base36 hne (List.all_eq_true.mp hall)
    rw [hn]
    rfl
  · intro ro raw o ho
    unfold UserAcl.make
    rw [ho]
    cases hp : parseUserPermissions raw <;> rfl

/-- Claim C1 counterexample: the blob `"+12345"` is one non-blank line
whose single chunk contains `'+'`, a character outside the base-36
alphabet, yet decoding succeeds (Python's `int(sub, 36)` accepts a leading
sign), so such a chunk does not raise. -/
theorem decode_error_cex :
    pySplitlines (pyRstrip ("+12345").data) = [['+', '1', '2', '3', '4', '5']]
      ∧ chunks6 ['+', '1', '2', '3', '4', '5'] = [['+', '1', '2', '3', '4', '5']]
      ∧ isBase36Char '+' = false
      ∧ (parseUserPermissions "+12345").isOk = true :=
  ⟨by decide, by decide, by decide, by decide⟩

/-- Claim C2 (amended): a six-character base-36 chunk decodes to the
31-bit zero-padded binary string of its value — of length exactly 31 —
provided its value is below `2 ^ 31`; a line decodes to the in-order
concatenation of its chunks' groups, and every decoded forum array of a
blob of such chunks has length a multiple of 31.  (A six-character chunk
can reach `36 ^ 6 - 1 ≥ 2 ^ 31`, in which case the group is longer than
31 — see the counterexample.) -/
theorem chunk_decode_31 :
    (∀ (cs : List Char) (n : Nat), cs.length = 6 → cs.all isBase36Char = true →
      pyIntBase36 cs = .ok (Int.ofNat n) → n < 2 ^ 31 →
      convertChunk cs
          = .ok (List.replicate (31 - (pyBinDigits n).length) '0' ++ pyBinDigits n)
        ∧ (List.replicate (31 - (pyBinDigits n).length) '0' ++ pyBinDigits n).length
            = 31) ∧
    (∀ (cache : SeqCache) (chunks : List (List Char)), SeqCacheWF cache →
      (∀ c ∈ chunks, chunkParses c = true) →
      ∃ cache2, decodeChunks cache chunks = .ok (cache2, (chunks.map conv).flatten)) ∧
    (∀ (raw : String) (acl : Acl), goodRaw raw = true →
      parseUserPermissions raw = .ok acl →
      ∀ kv ∈ acl, 31 ∣ kv.2.length) := by
  refine ⟨?_, ?_, ?_⟩
  · intro cs n _ _ hp hsmall
    exact convertChunk_ok_of_small hp hsmall
  · intro cache chunks hwf hall
    cases hd : decodeChunks cache chunks with
    | error e =>
      exfalso
      have h2 := decodeChunks_isOk chunks cache hwf
      rw [hd] at h2
      have h3 : chunks.all chunkParses = true := List.all_eq_true.mpr hall
      rw [h3] at h2
      cases h2
    | ok p =>
      obtain ⟨c2, bs⟩ := p
      obtain ⟨_, hbs⟩ := decodeChunks_ok chunks cache c2 bs hwf hd
      exact ⟨c2, by rw [hbs]⟩
  · intro raw acl hgood hp
    have hlines : ∀ l ∈ pySplitlines (pyRstrip raw.data),
        (l.isEmpty || (chunks6 l).all goodChunk) = true := List.all_eq_true.mp hgood
    exact parsePermsAux_dvd _ [] [] 0 acl seqCacheWF_nil
      (fun kv hkv => absurd hkv (List.not_mem_nil kv)) hlines hp

/-- Claim C2 counterexample: the six-character base-36 chunk `"zzzzzz"`
(value `36 ^ 6 - 1 ≥ 2 ^ 31`) decodes to a 32-character binary string, not
31, and the resulting forum array length 32 is not a multiple of 31. -/
theorem chunk_decode_31_cex :
    chunks6 ("zzzzzz").data = [['z', 'z', 'z', 'z', 'z', 'z']]
      ∧ (['z', 'z', 'z', 'z', 'z', 'z'] : List Char).all isBase36Char = true
      ∧ (['z', 'z', 'z', 'z', 'z', 'z'] : List Char).length = 6
      ∧ (parseUserPermissions "zzzzzz").map (fun acl => (dictGet "0" acl).map List.length)
          = .ok (some 32)
      ∧ ¬ (32 : Nat) = 31
      ∧ ¬ 31 ∣ (32 : Nat) :=
  ⟨by decide, by decide, by decide, by decide, by decide, by decide⟩

/-! ### Catalog lemmas -/

theorem flagIsOne_true {v : PyVal} (hv : pyEqOne v = true) :
    flagIsOne (some v) = true := by
  simp [flagIsOne, hv]

theorem flagIsOne_false {v : PyVal} (hv : ¬ pyEqOne v = true) :
    flagIsOne (some v) = false := by
  simp [flagIsOne]
  simpa using hv

theorem applyFlag_step {flag : Option PyVal} {name : Option String}
    (d : List (String × Nat)) (i : Nat) (hflag : flag.isSome = true)
    (hname : (!flagIsOne flag || name.isSome) = true) :
    ∃ d2 i2, applyFlag flag name d i = .ok (d2, i2)
      ∧ (∀ nm2 : String, (dictGet nm2 d2).isSome = true ↔
          (dictGet nm2 d).isSome = true ∨ (flagIsOne flag = true ∧ name = some nm2)) := by
  obtain ⟨v, rfl⟩ := Option.isSome_iff_exists.mp hflag
  by_cases hv : pyEqOne v = true
  · have hf1 : flagIsOne (some v) = true := flagIsOne_true hv
    rw [hf1] at hname
    simp only [Bool.not_true, Bool.false_or] at hname
    obtain ⟨nm, rfl⟩ := Option.isSome_iff_exists.mp hname
    refine ⟨dictInsert nm i d, i + 1, by simp [applyFlag, hv], ?_⟩
    intro nm2
    rw [dictGet_dictInsert_isSome]
    simp only [hf1, true_and, Option.some.injEq]
    constructor
    · rintro (rfl | h)
      · exact Or.inr rfl
      · exact Or.inl h
    · rintro (h | rfl)
      · exact Or.inr h
      · exact Or.inl rfl
  · have hv0 : pyEqOne v = false := by simpa using hv
    have hf0 : flagIsOne (some v) = false := flagIsOne_false hv
    refine ⟨d, i, by simp [applyFlag, hv0], ?_⟩
    intro nm2
    simp [hf0]

theorem applyFlag_fresh1 {flag : Option PyVal} {name : Option String} {nm : String}
    (d : List (String × Nat)) (i : Nat) (hf : flagIsOne flag = true)
    (hnm : name = some nm) (hfresh : dictGet nm d = none) :
    flag.isSome = true ∧ applyFlag flag name d i = .ok (d ++ [(nm, i)], i + 1) := by
  cases flag with
  | none => simp [flagIsOne] at hf
  | some v =>
    have hv : pyEqOne v = true := by simpa [flagIsOne] using hf
    subst hnm
    refine ⟨rfl, ?_⟩
    have : dictInsert nm i d = d ++ [(nm, i)] := dictInsert_fresh i hfresh
    simp [applyFlag, hv, this]

theorem applyFlag_fresh0 {flag : Option PyVal} (name : Option String)
    (d : List (String × Nat)) (i : Nat) (hflag : flag.isSome = true)
    (hf : flagIsOne flag = false) :
    applyFlag flag name d i = .ok (d, i) := by
  obtain ⟨v, rfl⟩ := Option.isSome_iff_exists.mp hflag
  have hv : pyEqOne v = false := by simpa [flagIsOne] using hf
  simp [applyFlag, hv]

theorem localFlaggedNames_cons_true {r : RawOption} {nm : String} (rest : List RawOption)
    (hf : flagIsOne r.is_local = true) (hn : r.auth_option = some nm) :
    localFlaggedNames (r :: rest) = nm :: localFlaggedNames rest := by
  simp [localFlaggedNames, hf, hn]

theorem localFlaggedNames_cons_false {r : RawOption} (rest : List RawOption)
    (hf : flagIsOne r.is_local = false) :
    localFlaggedNames (r :: rest) = localFlaggedNames rest := by
  simp [localFlaggedNames, hf]

theorem globalFlaggedNames_cons_true {r : RawOption} {nm : String} (rest : List RawOption)
    (hf : flagIsOne r.is_global = true) (hn : r.auth_option = some nm) :
    globalFlaggedNames (r :: rest) = nm :: globalFlaggedNames rest := by
  simp [globalFlaggedNames, hf, hn]

theorem globalFlaggedNames_cons_false {r : RawOption} (rest : List RawOption)
    (hf : flagIsOne r.is_global = false) :
    globalFlaggedNames (r :: rest) = globalFlaggedNames rest := by
  simp [globalFlaggedNames, hf]

theorem localFlaggedNames_mem_cons (r : RawOption) (rest : List RawOption) (nm2 : String) :
    nm2 ∈ localFlaggedNames (r :: rest) ↔
      (flagIsOne r.is_local = true ∧ r.auth_option = some nm2)
        ∨ nm2 ∈ localFlaggedNames rest := by
  by_cases hf : flagIsOne r.is_local = true
  · cases hn : r.auth_option with
    | none => simp [localFlaggedNames, hf, hn]
    | some a =>
      rw [localFlaggedNames_cons_true rest hf hn]
      simp only [List.mem_cons, hf, hn, true_and, Option.some.injEq]
      constructor
      · rintro (rfl | h)
        · exact Or.inl rfl
        · exact Or.inr h
      · rintro (rfl | h)
        · exact Or.inl rfl
        · exact Or.inr h
  · have hf0 : flagIsOne r.is_local = false := by simpa using hf
    rw [localFlaggedNames_cons_false rest hf0]
    simp [hf0]

theorem globalFlaggedNames_mem_cons (r : RawOption) (rest : List RawOption) (nm2 : String) :
    nm2 ∈ globalFlaggedNames (r :: rest) ↔
      (flagIsOne r.is_global = true ∧ r.auth_option = some nm2)
        ∨ nm2 ∈ globalFlaggedNames rest := by
  by_cases hf : flagIsOne r.is_global = true
  · cases hn : r.auth_option with
    | none => simp [globalFlaggedNames, hf, hn]
    | some a =>
      rw [globalFlaggedNames_cons_true rest hf hn]
      simp only [List.mem_cons, hf, hn, true_and, Option.some.injEq]
      constructor
      · rintro (rfl | h)
        · exact Or.inl rfl
        · exact Or.inr h
      · rintro (rfl | h)
        · exact Or.inl rfl
        · exact Or.inr h
  · have hf0 : flagIsOne r.is_global = false := by simpa using hf
    rw [globalFlaggedNames_cons_false rest hf0]
    simp [hf0]

theorem parseAclOptionsAux_ok : ∀ (raw : List RawOption) (locs globs : List (String × Nat))
    (li gi : Nat), (∀ r ∈ raw, recordOK r = true) →
    ∃ t : AclOptions, parseAclOptionsAux raw locs globs li gi = .ok t
      ∧ (∀ name : String, (dictGet name t.localOpts).isSome = true ↔
            (dictGet name locs).isSome = true ∨ name ∈ localFlaggedNames raw)
      ∧ (∀ name : String, (dictGet name t.globalOpts).isSome = true ↔
            (dictGet name globs).isSome = true ∨ name ∈ globalFlaggedNames raw) := by
  intro raw
  induction raw with
  | nil =>
    intro locs globs li gi _
    refine ⟨⟨locs, globs⟩, rfl, ?_, ?_⟩
    · intro name
      simp [localFlaggedNames]
    · intro name
      simp [globalFlaggedNames]
  | cons r rest ih =>
    intro locs globs li gi hOK
    have hr := hOK r (List.mem_cons_self _ _)
    have hrest : ∀ x ∈ rest, recordOK x = true :=
      fun x hx => hOK x (List.mem_cons_of_mem _ hx)
    unfold recordOK at hr
    simp only [Bool.and_eq_true] at hr
    obtain ⟨⟨⟨h1, h2⟩, h3⟩, h4⟩ := hr
    obtain ⟨locs2, li2, heql, hdl⟩ := applyFlag_step locs li h1 h3
    obtain ⟨globs2, gi2, heqg, hdg⟩ := applyFlag_step globs gi h2 h4
    obtain ⟨t, ht, htl, htg⟩ := ih locs2 globs2 li2 gi2 hrest
    refine ⟨t, ?_, ?_, ?_⟩
    · unfold parseAclOptionsAux
      simp only [heql, heqg]
      exact ht
    · intro name
      rw [htl name, hdl name, localFlaggedNames_mem_cons r rest name]
      tauto
    · intro name
      rw [htg name, hdg name, globalFlaggedNames_mem_cons r rest name]
      tauto

theorem dictGet_singleton_ne {x nm : String} (v : Nat) (h : x ≠ nm) :
    dictGet x [(nm, v)] = none := by
  simp [dictGet, h]

theorem parseAclOptionsAux_enum : ∀ (raw : List RawOption)
    (locs globs : List (String × Nat)) (li gi : Nat),
    (∀ r ∈ raw, recordOK r = true) →
    (localFlaggedNames raw).Nodup →
    (∀ nm ∈ localFlaggedNames raw, dictGet nm locs = none) →
    (globalFlaggedNames raw).Nodup →
    (∀ nm ∈ globalFlaggedNames raw, dictGet nm globs = none) →
    parseAclOptionsAux raw locs globs li gi
      = .ok ⟨locs ++ enumFrom li (localFlaggedNames raw),
             globs ++ enumFrom gi (globalFlaggedNames raw)⟩ := by
  intro raw
  induction raw with
  | nil =>
    intro locs globs li gi _ _ _ _ _
    simp [parseAclOptionsAux, localFlaggedNames, globalFlaggedNames, enumFrom]
  | cons r rest ih =>
    intro locs globs li gi hOK hlnd hlfresh hgnd hgfresh
    have hr := hOK r (List.mem_cons_self _ _)
    have hrest : ∀ x ∈ rest, recordOK x = true :=
      fun x hx => hOK x (List.mem_cons_of_mem _ hx)
    unfold recordOK at hr
    simp only [Bool.and_eq_true] at hr
    obtain ⟨⟨⟨h1, h2⟩, h3⟩, h4⟩ := hr
    by_cases hfl : flagIsOne r.is_local = true
    · have hnm : ∃ nm, r.auth_option = some nm := by
        rw [hfl] at h3
        simp only [Bool.not_true, Bool.false_or] at h3
        exact Option.isSome_iff_exists.mp h3
      obtain ⟨nm, hnm⟩ := hnm
      have hnames : localFlaggedNames (r :: rest) = nm :: localFlaggedNames rest :=
        localFlaggedNames_cons_true rest hfl hnm
      rw [hnames] at hlnd hlfresh
      have hnd := List.nodup_cons.mp hlnd
      have hfreshnm : dictGet nm locs = none := hlfresh nm (List.mem_cons_self _ _)
      obtain ⟨_, heql⟩ := applyFlag_fresh1 locs li hfl hnm hfreshnm
      have hlfresh2 : ∀ x ∈ localFlaggedNames rest,
          dictGet x (locs ++ [(nm, li)]) = none := by
        intro x hx
        have hxne : x ≠ nm := fun hxe => hnd.1 (hxe ▸ hx)
        rw [dictGet_append_right _ (hlfresh x (List.mem_cons_of_mem _ hx))]
        exact dictGet_singleton_ne li hxne
      by_cases hfg : flagIsOne r.is_global = true
      · have hnmg : r.auth_option = some nm := hnm
        have hnamesg : globalFlaggedNames (r :: rest) = nm :: globalFlaggedNames rest :=
          globalFlaggedNames_cons_true rest hfg hnm
        rw [hnamesg] at hgnd hgfresh
        have hgnd2 := List.nodup_cons.mp hgnd
        have hfreshg : dictGet nm globs = none := hgfresh nm (List.mem_cons_self _ _)
        obtain ⟨_, heqg⟩ := applyFlag_fresh1 globs gi hfg hnm hfreshg
        have hgfresh2 : ∀ x ∈ globalFlaggedNames rest,
            dictGet x (globs ++ [(nm, gi)]) = none := by
          intro x hx
          have hxne : x ≠ nm := fun hxe => hgnd2.1 (hxe ▸ hx)
          rw [dictGet_append_right _ (hgfresh x (List.mem_cons_of_mem _ hx))]
          exact dictGet_singleton_ne gi hxne
        have hrec := ih (locs ++ [(nm, li)]) (globs ++ [(nm, gi)]) (li + 1) (gi + 1)
          hrest hnd.2 hlfresh2 hgnd2.2 hgfresh2
        unfold parseAclOptionsAux
        simp only [heql, heqg, hrec, hnames, hnamesg, enumFrom, List.append_assoc,
          List.singleton_append]
      · have hfg0 : flagIsOne r.is_global = false := by simpa using hfg
        have hnamesg : globalFlaggedNames (r :: rest) = globalFlaggedNames rest :=
          globalFlaggedNames_cons_false rest hfg0
        rw [hnamesg] at hgnd hgfresh
        have heqg := applyFlag_fresh0 r.auth_option globs gi h2 hfg0
        have hrec := ih (locs ++ [(nm, li)]) globs (li + 1) gi
          hrest hnd.2 hlfresh2 hgnd hgfresh
        unfold parseAclOptionsAux
        simp only [heql, heqg, hrec, hnames, hnamesg, enumFrom, List.append_assoc,
          List.singleton_append]
    · have hfl0 : flagIsOne r.is_local = false := by simpa using hfl
      have hnames : localFlaggedNames (r :: rest) = localFlaggedNames rest :=
        localFlaggedNames_cons_false rest hfl0
      rw [hnames] at hlnd hlfresh
      have heql := applyFlag_fresh0 r.auth_option locs li h1 hfl0
      by_cases hfg : flagIsOne r.is_global = true
      · have hnm : ∃ nm, r.auth_option = some nm := by
          rw [hfg] at h4
          simp only [Bool.not_true, Bool.false_or] at h4
          exact Option.isSome_iff_exists.mp h4
        obtain ⟨nm, hnm⟩ := hnm
        have hnamesg : globalFlaggedNames (r :: rest) = nm :: globalFlaggedNames rest :=
          globalFlaggedNames_cons_true rest hfg hnm
        rw [hnamesg] at hgnd hgfresh
        have hgnd2 := List.nodup_cons.mp hgnd
        have hfreshg : dictGet nm globs = none := hgfresh nm (List.mem_cons_self _ _)
        obtain ⟨_, heqg⟩ := applyFlag_fresh1 globs gi hfg hnm hfreshg
        have hgfresh2 : ∀ x ∈ globalFlaggedNames rest,
            dictGet x (globs ++ [(nm, gi)]) = none := by
          intro x hx
          have hxne : x ≠ nm := fun hxe => hgnd2.1 (hxe ▸ hx)
          rw [dictGet_append_right _ (hgfresh x (List.mem_cons_of_mem _ hx))]
          exact dictGet_singleton_ne gi hxne
        have hrec := ih locs (globs ++ [(nm, gi)]) li (gi + 1)
          hrest hlnd hlfresh hgnd2.2 hgfresh2
        unfold parseAclOptionsAux
        simp only [heql, heqg, hrec, hnames, hnamesg, enumFrom, List.append_assoc,
          List.singleton_append]
      · have hfg0 : flagIsOne r.is_global = false := by simpa using hfg
        have hnamesg : globalFlaggedNames (r :: rest) = globalFlaggedNames rest :=
          globalFlaggedNames_cons_false rest hfg0
        rw [hnamesg] at hgnd hgfresh
        have heqg := applyFlag_fresh0 r.auth_option globs gi h2 hfg0
        have hrec := ih locs globs li gi hrest hlnd hlfresh hgnd hgfresh
        unfold parseAclOptionsAux
        simp only [heql, heqg, hrec, hnames, hnamesg]

theorem enumFrom_snd : ∀ (xs : List String) (i : Nat),
    (enumFrom i xs).map Prod.snd = List.range' i xs.length := by
  intro xs
  induction xs with
  | nil => intro i; rfl
  | cons x rest ih =>
    intro i
    simp only [enumFrom, List.map_cons, List.length_cons, List.range'_succ, ih]

/-! ### Claim theorems: option catalog -/

/-- Claim C6 (amended): over well-formed records whose flagged names are
distinct within each scope, the parser assigns dense zero-based indices
`0..n-1` in input order, per scope independently; the table is the
in-order enumeration of the flagged names.  With duplicate names the
retained index is the last occurrence's running-counter value — the
counter counts every flagged occurrence, so the retained values are then
not dense (see the counterexample). -/
theorem catalog_dense_indices (raw : List RawOption)
    (hOK : ∀ r ∈ raw, recordOK r = true)
    (hlnd : (localFlaggedNames raw).Nodup)
    (hgnd : (globalFlaggedNames raw).Nodup) :
    parseAclOptions raw = .ok ⟨enumFrom 0 (localFlaggedNames raw),
        enumFrom 0 (globalFlaggedNames raw)⟩
      ∧ (enumFrom 0 (localFlaggedNames raw)).map Prod.snd
          = List.range (localFlaggedNames raw).length
      ∧ (enumFrom 0 (globalFlaggedNames raw)).map Prod.snd
          = List.range (globalFlaggedNames raw).length := by
  refine ⟨?_, ?_, ?_⟩
  · have h := parseAclOptionsAux_enum raw [] [] 0 0 hOK hlnd
      (fun nm _ => rfl) hgnd (fun nm _ => rfl)
    simpa [parseAclOptions] using h
  · rw [enumFrom_snd, List.range_eq_range']
  · rw [enumFrom_snd, List.range_eq_range']

/-- Claim C6 counterexample: on the duplicate catalog
`[a(local), a(local)]` the running counter still advances for the
overwritten first occurrence, so the final local table is `{a: 1}` —
its index values are not the dense range `0..n-1` (`0` is missing). -/
theorem catalog_dense_cex :
    parseAclOptions dupCatalog = .ok ⟨[("a", 1)], []⟩
      ∧ (parseAclOptions dupCatalog).map (fun t => denseValues t.localOpts)
          = .ok false :=
  ⟨by decide, by decide⟩

/-- Claim C7 (amended): records whose two flag fields are present are
processed without error — a present flag value other than `1`/`True` just
assigns no index in that scope, so a name never flagged gets no entry —
but a record missing a flag key raises `KeyError` (see the
counterexample), so the parser is not total. -/
theorem catalog_malformed_flags :
    (∀ raw : List RawOption, (∀ r ∈ raw, recordOK r = true) →
      (parseAclOptions raw).isOk = true) ∧
    (∀ (raw : List RawOption) (t : AclOptions), (∀ r ∈ raw, recordOK r = true) →
      parseAclOptions raw = .ok t →
      ∀ name : String,
        ((dictGet name t.localOpts).isSome = true ↔ name ∈ localFlaggedNames raw)
        ∧ ((dictGet name t.globalOpts).isSome = true ↔ name ∈ globalFlaggedNames raw)) := by
  constructor
  · intro raw hOK
    obtain ⟨t, ht, _, _⟩ := parseAclOptionsAux_ok raw [] [] 0 0 hOK
    unfold parseAclOptions
    rw [ht]
    rfl
  · intro raw t hOK hp name
    obtain ⟨t2, ht2, htl, htg⟩ := parseAclOptionsAux_ok raw [] [] 0 0 hOK
    have ht3 : t2 = t := by
      have hth := hp
      unfold parseAclOptions at hth
      rw [ht2] at hth
      simpa using hth
    subst ht3
    constructor
    · rw [htl name]
      simp [dictGet]
    · rw [htg name]
      simp [dictGet]

/-- Claim C7 counterexample: a record whose `is_local`/`is_global` keys
are absent is not treated as unflagged — the subscript raises `KeyError`,
so the parser does raise for such input. -/
theorem catalog_keyerror_cex :
    parseAclOptions [⟨some "x", none, none⟩] = .error .keyError :=
  by decide

/-! ### Witnesses -/

/-- Witness for C1: a fully alphabetic blob on which the success
equivalence is instantiated. -/
theorem decode_error_iff_witness :
    allAscii "0z" = true ∧ (parseUserPermissions "0z").isOk = allChunksParse "0z" :=
  ⟨by decide, decode_error_iff.1 "0z" (by decide)⟩

/-- Witness for C2: a one-chunk blob of value 1 whose forum-0 array has
length a multiple of 31. -/
theorem chunk_decode_31_witness :
    goodRaw "000001" = true
      ∧ parseUserPermissions "000001" = .ok [("0", List.replicate 30 '0' ++ ['1'])]
      ∧ 31 ∣ (("0", List.replicate 30 '0' ++ ['1']) : String × List Char).2.length :=
  ⟨by decide, by decide,
   chunk_decode_31.2.2 "000001" [("0", List.replicate 30 '0' ++ ['1'])] (by decide)
     (by decide) ("0", List.replicate 30 '0' ++ ['1']) (by decide)⟩

/-- Witness for C3: negating the granted option `a` flips true to false. -/
theorem negation_law_witness :
    isNegated "a" = false
      ∧ hasPrivilege sampleAcl "a" 0 = .ok (true, sampleAcl')
      ∧ hasPrivilege sampleAcl ("!" ++ "a") 0 = .ok (!true, sampleAcl') :=
  ⟨by decide, by decide,
   negation_law sampleAcl "a" 0 true sampleAcl' (by decide) (by decide)⟩

/-- Witness for C4: option `a` with its global bit set resolves true at
forum 5. -/
theorem local_never_revokes_global_witness :
    sampleAcl.bitsWF = true
      ∧ isNegated "a" = false
      ∧ dictGet (bareOption "a") sampleAcl.acl_options.globalOpts = some 0
      ∧ dictGet "0" sampleAcl.acl = some ['1']
      ∧ pyIndex ['1'] 0 = some '1'
      ∧ (hasPrivilege sampleAcl "a" 5).map Prod.fst = .ok true :=
  ⟨by decide, by decide, by decide, by decide, by decide,
   local_never_revokes_global sampleAcl "a" 0 ['1'] (by decide) (by decide) (by decide)
     (by decide) (by decide) 5⟩

/-- Witness for C5 (amended): repeating the query for `a` returns the same
boolean. -/
theorem repeat_query_same_result_witness :
    hasPrivilege sampleAcl "a" 0 = .ok (true, sampleAcl')
      ∧ ∃ u2, hasPrivilege sampleAcl' "a" 0 = .ok (true, u2) :=
  ⟨by decide, repeat_query_same_result sampleAcl "a" 0 true sampleAcl' (by decide)⟩

/-- Witness for C6 (amended): a duplicate-free catalog gets the dense
in-order enumeration. -/
theorem catalog_dense_indices_witness :
    (∀ r ∈ okCatalog, recordOK r = true)
      ∧ (localFlaggedNames okCatalog).Nodup
      ∧ (globalFlaggedNames okCatalog).Nodup
      ∧ (parseAclOptions okCatalog = .ok ⟨enumFrom 0 (localFlaggedNames okCatalog),
            enumFrom 0 (globalFlaggedNames okCatalog)⟩
          ∧ (enumFrom 0 (localFlaggedNames okCatalog)).map Prod.snd
              = List.range (localFlaggedNames okCatalog).length
          ∧ (enumFrom 0 (globalFlaggedNames okCatalog)).map Prod.snd
              = List.range (globalFlaggedNames okCatalog).length) :=
  ⟨by decide, by decide, by decide,
   catalog_dense_indices okCatalog (by decide) (by decide) (by decide)⟩

/-- Witness for C7 (amended): a record with present but non-`1` flag values
parses without error. -/
theorem catalog_malformed_flags_witness :
    (∀ r ∈ mixedCatalog, recordOK r = true)
      ∧ (parseAclOptions mixedCatalog).isOk = true :=
  ⟨by decide, catalog_malformed_flags.1 mixedCatalog (by decide)⟩

/-- Witness for C8: the unknown negated option `!zzz` resolves to its
negation flag (true) at forum 7. -/
theorem missing_option_resolves_witness :
    dictGet (bareOption "!zzz") sampleAcl.acl_options.globalOpts = none
      ∧ dictGet (bareOption "!zzz") sampleAcl.acl_options.localOpts = none
      ∧ (hasPrivilege sampleAcl "!zzz" 7).map Prod.fst = .ok (isNegated "!zzz") :=
  ⟨by decide, by decide,
   missing_option_resolves sampleAcl "!zzz" 7 (by decide) (by decide)⟩

/-- Witness for C9: `("b", "a")` resolves true because `a` alone does. -/
theorem has_privileges_or_witness :
    hasPrivileges sampleAcl ["b", "a"] 0 = .ok (true, sampleAcl2)
      ∧ (true = true ↔ ∃ p ∈ ["b", "a"], ∃ w,
          hasPrivilege sampleAcl p 0 = .ok (true, w)) :=
  ⟨by decide, has_privileges_or sampleAcl ["b", "a"] 0 true sampleAcl2 (by decide)⟩

/-- Witness for C10: both query entry points leave the tables of
`sampleAcl` unchanged. -/
theorem queries_preserve_tables_witness :
    (hasPrivilege sampleAcl "a" 0 = .ok (true, sampleAcl')
      ∧ sampleAcl'.acl_options = sampleAcl.acl_options
      ∧ sampleAcl'.acl = sampleAcl.acl)
    ∧ (hasPrivileges sampleAcl ["b", "a"] 0 = .ok (true, sampleAcl2)
      ∧ sampleAcl2.acl_options = sampleAcl.acl_options
      ∧ sampleAcl2.acl = sampleAcl.acl) :=
  ⟨⟨by decide, queries_preserve_tables.1 sampleAcl "a" 0 true sampleAcl' (by decide)⟩,
   ⟨by decide, queries_preserve_tables.2 sampleAcl ["b", "a"] 0 true sampleAcl2 (by decide)⟩⟩

end FlaskPhpbb3
